import Mathlib

/-!
Verification of the lane-detection / lane-following geometry pipeline
(`lane_detection.py`, `lane_following.py`).

The Python source works on pixel coordinates held as machine floats; the
embedding models them as exact rationals (`ℚ`).  Python's `int(...)`
truncation-toward-zero is modelled by `truncQ`, `abs` by the if-based
`absQ`, and the `float('inf')` slope sentinel is modelled by the
"finite slope" predicate (arithmetic comparisons against `inf`/`nan`
evaluate to `False` in Python, which is exactly what requiring
finiteness of both operands captures).
-/

/-- A line segment `(x1, y1, x2, y2)` in pixel coordinates,
as produced by the Hough detector. -/
structure Line where
  x1 : ℚ
  y1 : ℚ
  x2 : ℚ
  y2 : ℚ
deriving DecidableEq, Repr

/-- The `1e-6` epsilon used throughout the source for vertical /
horizontal degeneracy tests. -/
def eps : ℚ := 1 / 1000000

/-- Python's `abs` on a number. -/
def absQ (q : ℚ) : ℚ := if q < 0 then -q else q

/-- Python's `int(...)` on a float: truncation toward zero
(`-⌊-q⌋` is the ceiling, used for negative arguments). -/
def truncQ (q : ℚ) : ℚ := if 0 ≤ q then (⌊q⌋ : ℚ) else -(⌊-q⌋ : ℚ)

/-- `slope = (y2 - y1) / (x2 - x1)` (meaningful for non-vertical lines). -/
def slopeQ (l : Line) : ℚ := (l.y2 - l.y1) / (l.x2 - l.x1)

/-- Midpoint x-coordinate `mid_x = (x1 + x2) / 2`. -/
def midX (l : Line) : ℚ := (l.x1 + l.x2) / 2

/-- Squared Euclidean length.  The source compares `sqrt`-lengths;
`sqrt` is strictly monotone on nonnegatives, so length comparisons
agree with squared-length comparisons. -/
def len2 (l : Line) : ℚ := (l.x2 - l.x1) ^ 2 + (l.y2 - l.y1) ^ 2

/-- Python's `max(iterable, key=f)` seeded at `d`: the first element
attaining the maximum wins (replacement only on strict increase). -/
def bestBy (f : Line → ℚ) (d : Line) : List Line → Line
  | [] => d
  | x :: r => bestBy f (if f d < f x then x else d) r

/-! ### `remove_duplicate_lines` (lane_detection.py, lines 27-102) -/

/-- The pre-filter of `remove_duplicate_lines`: drop segments with
`abs(x2 - x1) < 5`, keep those with `0.1 <= abs(slope) <= 5.0`. -/
def dedupKeepP (l : Line) : Prop :=
  ¬ absQ (l.x2 - l.x1) < 5 ∧ 1/10 ≤ absQ (slopeQ l) ∧ absQ (slopeQ l) ≤ 5

instance (l : Line) : Decidable (dedupKeepP l) := by
  unfold dedupKeepP; infer_instance

/-- The feature-extraction loop of `remove_duplicate_lines` restricted
to its filtering effect (the derived slope/midpoint/length features are
recomputed on demand by `slopeQ`/`midX`/`len2`). -/
def filterKeep : List Line → List Line
  | [] => []
  | l :: r => if dedupKeepP l then l :: filterKeep r else filterKeep r

/-- The similarity criterion of the dedup clustering:
`abs(slope1 - slope2) < 0.08 and abs(mid_x1 - mid_x2) < 50`. -/
def dedupSimP (a b : Line) : Prop :=
  absQ (slopeQ a - slopeQ b) < 2/25 ∧ absQ (midX a - midX b) < 50

instance (a b : Line) : Decidable (dedupSimP a b) := by
  unfold dedupSimP; infer_instance

/-- The inner scan of the dedup clustering: split the not-yet-used
lines into those similar to the seed `a` (joining its cluster) and the
rest, preserving order. -/
def simSplit (a : Line) : List Line → List Line × List Line
  | [] => ([], [])
  | b :: r =>
    let p := simSplit a r
    if dedupSimP a b then (b :: p.1, p.2) else (p.1, b :: p.2)

theorem simSplit_snd_length (a : Line) (ls : List Line) :
    (simSplit a ls).2.length ≤ ls.length := by
  induction ls with
  | nil => simp [simSplit]
  | cons b r ih =>
    simp only [simSplit]
    split
    · exact ih.trans (Nat.le_succ _)
    · simpa using ih

/-- The outer clustering loop of `remove_duplicate_lines`: each
not-yet-used line seeds a cluster of all later unused similar lines;
the longest member of each cluster is kept. -/
def dedupCluster : List Line → List Line
  | [] => []
  | d :: rest =>
    bestBy len2 d (simSplit d rest).1 :: dedupCluster (simSplit d rest).2
termination_by l => l.length
decreasing_by
  simp only [List.length_cons]
  exact Nat.lt_succ_of_le (simSplit_snd_length _ _)

/-- The `len(line_data) == 0` check of `remove_duplicate_lines`
followed by the clustering: `None` when nothing survived the filter. -/
def dedupOfData : List Line → Option (List Line)
  | [] => none
  | m :: ms => some (dedupCluster (m :: ms))

/-- `remove_duplicate_lines(lines)`: `none` models Python's `None`
result (all candidate lines filtered out); the empty input is returned
unchanged. -/
def removeDuplicateLines : List Line → Option (List Line)
  | [] => some []
  | l :: rest => dedupOfData (filterKeep (l :: rest))

/-! ### `classify_lines_by_position_and_slope` (lines 104-134) -/

/-- `classify_lines_by_position_and_slope(lines, img_width)`:
append to the left group when `mid_x < img_width/2` and `slope < -0.2`,
to the right group when `mid_x >= img_width/2` and `slope > 0.2`;
vertical lines (`abs(x2-x1) < 1e-6`) are skipped, everything else is
dropped. -/
def classifyLines : List Line → ℚ → List Line × List Line
  | [], _ => ([], [])
  | l :: rest, w =>
    let p := classifyLines rest w
    if absQ (l.x2 - l.x1) < eps then p
    else if midX l < w / 2 then
      (if slopeQ l < -(1/5) then (l :: p.1, p.2) else p)
    else
      (if 1/5 < slopeQ l then (p.1, l :: p.2) else p)

/-- The left-group condition of the classifier: non-vertical, midpoint
left of the frame center, slope `< -0.2`. -/
def leftCondP (w : ℚ) (l : Line) : Prop :=
  ¬ absQ (l.x2 - l.x1) < eps ∧ midX l < w / 2 ∧ slopeQ l < -(1/5)

/-- The right-group condition of the classifier: non-vertical, midpoint
at or right of the frame center, slope `> 0.2`. -/
def rightCondP (w : ℚ) (l : Line) : Prop :=
  ¬ absQ (l.x2 - l.x1) < eps ∧ ¬ midX l < w / 2 ∧ 1/5 < slopeQ l

/-! ### `merge_similar_lines_in_group` (lines 136-203) -/

/-- A segment has a finite slope in the merge step iff
`abs(x2 - x1) > 1e-6` (otherwise the source assigns `float('inf')`). -/
def finSlopeP (l : Line) : Prop := eps < absQ (l.x2 - l.x1)

instance (l : Line) : Decidable (finSlopeP l) := by
  unfold finSlopeP; infer_instance

/-- Merge-step similarity `abs(slope1 - slope2) < 0.15`; any comparison
involving the infinite-slope sentinel is `False` in Python (`inf - inf`
is `nan`, and `nan < t`, `inf < t` are `False`), so similarity requires
both slopes finite. -/
def mergeSimP (a b : Line) : Prop :=
  finSlopeP a ∧ finSlopeP b ∧ absQ (slopeQ a - slopeQ b) < 3/20

instance (a b : Line) : Decidable (mergeSimP a b) := by
  unfold mergeSimP; infer_instance

/-- Inner scan of the merge loop: split the unused lines into those
similar to the seed and the rest, preserving order. -/
def mergeSplit (a : Line) : List Line → List Line × List Line
  | [] => ([], [])
  | b :: r =>
    let p := mergeSplit a r
    if mergeSimP a b then (b :: p.1, p.2) else (p.1, b :: p.2)

theorem mergeSplit_snd_length (a : Line) (ls : List Line) :
    (mergeSplit a ls).2.length ≤ ls.length := by
  induction ls with
  | nil => simp [mergeSplit]
  | cons b r ih =>
    simp only [mergeSplit]
    split
    · exact ih.trans (Nat.le_succ _)
    · simpa using ih

/-- `all_x` of a cluster: both endpoint x-coordinates of every line,
in iteration order. -/
def allX : List Line → List ℚ
  | [] => []
  | l :: r => l.x1 :: l.x2 :: allX r

/-- `all_y` of a cluster. -/
def allY : List Line → List ℚ
  | [] => []
  | l :: r => l.y1 :: l.y2 :: allY r

/-- `∃ y ≠ x` in a list of rationals. -/
def existsNeQ (x : ℚ) : List ℚ → Prop
  | [] => False
  | y :: r => y ≠ x ∨ existsNeQ x r

def decExistsNeQ (x : ℚ) : (l : List ℚ) → Decidable (existsNeQ x l)
  | [] => isFalse (fun h => h)
  | _y :: r => @instDecidableOr _ _ inferInstance (decExistsNeQ x r)

instance (x : ℚ) (l : List ℚ) : Decidable (existsNeQ x l) := decExistsNeQ x l

/-- `len(set(xs)) > 1`: at least two distinct values occur. -/
def hasTwo : List ℚ → Prop
  | [] => False
  | x :: r => existsNeQ x r

instance : (l : List ℚ) → Decidable (hasTwo l)
  | [] => isFalse (fun h => h)
  | x :: r => decExistsNeQ x r

/-- `len(set(all_x)) > 1` for a cluster. -/
def hasTwoXP (c : List Line) : Prop := hasTwo (allX c)

instance (c : List Line) : Decidable (hasTwoXP c) := by
  unfold hasTwoXP; infer_instance

/-- Sum of a list of rationals. -/
def sumQ : List ℚ → ℚ
  | [] => 0
  | x :: r => x + sumQ r

/-- Pointwise dot product of two equally long lists. -/
def dotQ : List ℚ → List ℚ → ℚ
  | x :: xs, y :: ys => x * y + dotQ xs ys
  | _, _ => 0

/-- Minimum over `x :: xs` (Python `min(list)` on a nonempty list). -/
def minQl (x : ℚ) : List ℚ → ℚ
  | [] => x
  | y :: r => minQl (min x y) r

/-- Maximum over `x :: xs`. -/
def maxQl (x : ℚ) : List ℚ → ℚ
  | [] => x
  | y :: r => maxQl (max x y) r

/-- The degree-1 least-squares fit `np.polyfit(all_x, all_y, 1)`
(normal-equation solution; the minimizer is unique when the x-values
are not all equal) followed by the construction of the merged segment
`[int(min_x), int(y1_new), int(max_x), int(y2_new)]`. -/
def fitLineOf (c : List Line) : Line :=
  let xs := allX c
  let ys := allY c
  let n : ℚ := xs.length
  let sx := sumQ xs
  let sy := sumQ ys
  let sxx := dotQ xs xs
  let sxy := dotQ xs ys
  let m := (n * sxy - sx * sy) / (n * sxx - sx * sx)
  let b := (sy - m * sx) / n
  match xs with
  | [] => ⟨0, 0, 0, 0⟩
  | x0 :: xt =>
    ⟨truncQ (minQl x0 xt), truncQ (m * minQl x0 xt + b),
     truncQ (maxQl x0 xt), truncQ (m * maxQl x0 xt + b)⟩

/-- The output produced for one cluster (`similar_lines` with seed `d`
and members `sims`): a singleton cluster keeps its line, a multi-member
cluster is replaced by its least-squares fit, falling back to its
longest member when all endpoint x-values coincide. -/
def clusterRep (d : Line) : List Line → List Line
  | [] => [d]
  | s :: ss =>
    if hasTwoXP (d :: s :: ss) then [fitLineOf (d :: s :: ss)]
    else [bestBy len2 d (s :: ss)]

def mergeCluster : List Line → List Line
  | [] => []
  | d :: rest =>
    clusterRep d (mergeSplit d rest).1 ++ mergeCluster (mergeSplit d rest).2
termination_by l => l.length
decreasing_by
  simp only [List.length_cons]
  exact Nat.lt_succ_of_le (mergeSplit_snd_length _ _)

/-- `merge_similar_lines_in_group(lines)`: groups of at most one line
are returned unchanged. -/
def mergeGroup (ls : List Line) : List Line :=
  if ls.length ≤ 1 then ls else mergeCluster ls

/-! ### `extend_line_to_full_height` (lines 205-227) -/

/-- `extend_line_to_full_height(line, img_height, img_width)`.
A vertical input (`abs(x2-x1) < 1e-6`) yields `[int(x1), 0, int(x1),
img_height-1]` (note: not clamped); otherwise the x-coordinates at
`y = 0` and `y = img_height-1` are computed from slope/intercept
(falling back to `x1` for near-horizontal lines) and clamped to
`[0, img_width-1]`. -/
def extendLine (l : Line) (h w : ℚ) : Line :=
  if absQ (l.x2 - l.x1) < eps then ⟨truncQ l.x1, 0, truncQ l.x1, h - 1⟩
  else
    let s := slopeQ l
    let b := l.y1 - s * l.x1
    let xt := if eps < absQ s then (0 - b) / s else l.x1
    let xb := if eps < absQ s then (h - 1 - b) / s else l.x1
    ⟨truncQ (max 0 (min (w - 1) xt)), 0, truncQ (max 0 (min (w - 1) xb)), h - 1⟩

/-! ### `detect_lanes` (lines 229-277) -/

/-- Step 4 of `detect_lanes`: `if left_lines and right_lines`, pick the
longest line of each side, extend both, and emit the single lane. -/
def pairLanes (h w : ℚ) : List Line → List Line → List (Line × Line)
  | [], _ => []
  | _ :: _, [] => []
  | l0 :: lt, r0 :: rt =>
    [(extendLine (bestBy len2 l0 lt) h w, extendLine (bestBy len2 r0 rt) h w)]

/-- Steps 2-4 of `detect_lanes` applied to the deduplication result
(`None` or empty aborts with no lanes). -/
def lanesOfUnique (h w : ℚ) : Option (List Line) → List (Line × Line)
  | none => []
  | some [] => []
  | some (u :: us) =>
    pairLanes h w (mergeGroup (classifyLines (u :: us) w).1)
      (mergeGroup (classifyLines (u :: us) w).2)

/-- `detect_lanes(img, lines)`, with the image represented by its
height and width.  `none` models Python's `lines is None`. -/
def detectLanes (h w : ℚ) : Option (List Line) → List (Line × Line)
  | none => []
  | some ls => lanesOfUnique h w (removeDuplicateLines ls)

/-! ### `get_lane_center` (lane_following.py, lines 4-55) -/

/-- `get_lane_center(lanes, img_height, img_width)`.
`none` models the Python `(None, None)` no-lane result; in a
`some (ci, s)` result, `s = none` models the `float('inf')` slope of a
near-vertical center line.  (A lane is a pair by construction, so the
source's `len(lane) != 2` guard cannot fire.) -/
def getLaneCenter (lanes : List (Line × Line)) (h w : ℚ) :
    Option (ℚ × Option ℚ) :=
  match lanes with
  | [] => none
  | (lf, rt) :: _ =>
    let cx1 := (lf.x1 + rt.x1) / 2
    let cy1 := (lf.y1 + rt.y1) / 2
    let cx2 := (lf.x2 + rt.x2) / 2
    let cy2 := (lf.y2 + rt.y2) / 2
    if absQ (cx2 - cx1) < eps then some (max 0 (min (w - 1) cx1), none)
    else
      let m := (cy2 - cy1) / (cx2 - cx1)
      let b := cy1 - m * cx1
      let ci := if absQ m < eps then w / 2 else (h - 1 - b) / m
      some (max 0 (min (w - 1) ci), some m)

/-! ### `recommend_direction` (lines 57-82) -/

/-- `recommend_direction(center_intercept, img_width, tolerance_factor)`;
`none` models a `None` center intercept. -/
def recommendDirection (ci : Option ℚ) (w tf : ℚ) : String :=
  match ci with
  | none => "No lane detected"
  | some c =>
    let off := c - w / 2
    let tol := w * tf
    if off < -tol then "Steer Left ⬅️"
    else if tol < off then "Steer Right ➡️"
    else "Go Forward ⬆️"

/-! ### `get_steering_angle` (lines 84-111) -/

/-- `get_steering_angle(center_intercept, img_width, max_angle)`. -/
def getSteeringAngle (ci : Option ℚ) (w m : ℚ) : ℚ :=
  match ci with
  | none => 0
  | some c =>
    let off := c - w / 2
    let sa := off / (w / 2) * m
    max (-m) (min m sa)

/-! ### Concrete inputs used in the end-to-end and counterexample
theorems -/

/-- Scenario A left segment `(100, 480, 300, 300)` (slope `-0.9`,
midpoint-x `200`). -/
def segA : Line := ⟨100, 480, 300, 300⟩

/-- Scenario A right segment `(700, 480, 500, 300)` (slope `+0.9`,
midpoint-x `600`). -/
def segB : Line := ⟨700, 480, 500, 300⟩

/-- A short left-side segment of slope `-0.3` near `x = 0`. -/
def segL1 : Line := ⟨0, 100, 10, 97⟩

/-- A parallel left-side segment of slope `-0.3` near `x = 200`, but
vertically offset so far that a line fit through both segments'
endpoints has positive slope. -/
def segL2 : Line := ⟨200, 300, 210, 297⟩

/-- A right-side segment of slope `+0.3` near `x = 700`. -/
def segR1 : Line := ⟨700, 300, 710, 303⟩

/-- Slope `1/2`, midpoint-x `0`, squared length `3125`. -/
def segK1 : Line := ⟨-25, 0, 25, 25⟩

/-- Slope `1/2`, midpoint-x `49`, squared length `4500` (the longest of
the `segK` family). -/
def segK2 : Line := ⟨19, 0, 79, 30⟩

/-- Slope `1/2`, midpoint-x `60`, squared length `3125`. -/
def segK3 : Line := ⟨35, 0, 85, 25⟩

/-- Slope `1/2`, midpoint-x `98`, squared length `3125`. -/
def segK4 : Line := ⟨73, 0, 123, 25⟩

/-- Slope `3/10`. -/
def segM1 : Line := ⟨0, 0, 10, 3⟩

/-- Slope `3/5`: dissimilar to `segM1` under the merge threshold. -/
def segM2 : Line := ⟨0, 10, 10, 16⟩

/-- Slope `3/10`: similar to `segM1` under the merge threshold. -/
def segM3 : Line := ⟨20, 5, 30, 8⟩

/-! ### Basic bridging lemmas -/

theorem absQ_eq_abs (q : ℚ) : absQ q = |q| := by
  unfold absQ
  rcases lt_or_le q 0 with h | h
  · rw [if_pos h, abs_of_neg h]
  · rw [if_neg (not_lt.mpr h), abs_of_nonneg h]

theorem truncQ_le_of_nonneg {q : ℚ} (h : 0 ≤ q) : truncQ q ≤ q := by
  unfold truncQ
  rw [if_pos h]
  exact Int.floor_le q

theorem truncQ_nonneg {q : ℚ} (h : 0 ≤ q) : 0 ≤ truncQ q := by
  unfold truncQ
  rw [if_pos h]
  exact_mod_cast Int.floor_nonneg.mpr h

theorem truncQ_mono {q r : ℚ} (h : q ≤ r) : truncQ q ≤ truncQ r := by
  unfold truncQ
  rcases le_or_lt 0 q with hq | hq
  · rw [if_pos hq, if_pos (hq.trans h)]
    exact_mod_cast Int.floor_le_floor h
  · rw [if_neg (not_le.mpr hq)]
    rcases le_or_lt 0 r with hr | hr
    · rw [if_pos hr]
      have h1 : (0:ℤ) ≤ ⌊-q⌋ := Int.floor_nonneg.mpr (by linarith)
      have h2 : (0:ℤ) ≤ ⌊r⌋ := Int.floor_nonneg.mpr hr
      have h1' : (0:ℚ) ≤ (⌊-q⌋ : ℚ) := by exact_mod_cast h1
      have h2' : (0:ℚ) ≤ (⌊r⌋ : ℚ) := by exact_mod_cast h2
      linarith
    · rw [if_neg (not_le.mpr hr)]
      have h3 : ⌊-r⌋ ≤ ⌊-q⌋ := Int.floor_le_floor (by linarith)
      have h3' : (⌊-r⌋ : ℚ) ≤ (⌊-q⌋ : ℚ) := by exact_mod_cast h3
      linarith

theorem truncQ_clamp_bounds {w x : ℚ} (hw : 1 ≤ w) :
    0 ≤ truncQ (max 0 (min (w - 1) x)) ∧ truncQ (max 0 (min (w - 1) x)) ≤ w - 1 := by
  have h0 : (0 : ℚ) ≤ max 0 (min (w - 1) x) := le_max_left _ _
  have h1 : max 0 (min (w - 1) x) ≤ w - 1 :=
    max_le (by linarith) (min_le_left _ _)
  exact ⟨truncQ_nonneg h0, (truncQ_le_of_nonneg h0).trans h1⟩

theorem truncQ_bounds_of_mem {a b q : ℚ} (h0 : 0 ≤ a) (ha : a ≤ q) (hb : q ≤ b) :
    0 ≤ truncQ q ∧ truncQ q ≤ b :=
  ⟨truncQ_nonneg (h0.trans ha), (truncQ_le_of_nonneg (h0.trans ha)).trans hb⟩

theorem bestBy_eq_or_mem (f : Line → ℚ) :
    ∀ (ls : List Line) (d : Line), bestBy f d ls = d ∨ bestBy f d ls ∈ ls := by
  intro ls
  induction ls with
  | nil => intro d; left; rfl
  | cons x r ih =>
    intro d
    rw [bestBy]
    rcases ih (if f d < f x then x else d) with h | h
    · rw [h]
      split
      · right; exact List.mem_cons_self _ _
      · left; rfl
    · right; exact List.mem_cons_of_mem _ h

theorem simSplit_fst_subset (a : Line) :
    ∀ (ls : List Line), ∀ x ∈ (simSplit a ls).1, x ∈ ls := by
  intro ls
  induction ls with
  | nil => intro x hx; simp [simSplit] at hx
  | cons b r ih =>
    intro x hx
    rw [simSplit] at hx
    by_cases hs : dedupSimP a b
    · rw [if_pos hs] at hx
      rcases List.mem_cons.mp hx with hx | hx
      · exact hx ▸ List.mem_cons_self _ _
      · exact List.mem_cons_of_mem _ (ih x hx)
    · rw [if_neg hs] at hx
      exact List.mem_cons_of_mem _ (ih x hx)

theorem simSplit_snd_subset (a : Line) :
    ∀ (ls : List Line), ∀ x ∈ (simSplit a ls).2, x ∈ ls := by
  intro ls
  induction ls with
  | nil => intro x hx; simp [simSplit] at hx
  | cons b r ih =>
    intro x hx
    rw [simSplit] at hx
    by_cases hs : dedupSimP a b
    · rw [if_pos hs] at hx
      exact List.mem_cons_of_mem _ (ih x hx)
    · rw [if_neg hs] at hx
      rcases List.mem_cons.mp hx with hx | hx
      · exact hx ▸ List.mem_cons_self _ _
      · exact List.mem_cons_of_mem _ (ih x hx)

theorem dedupCluster_subset :
    ∀ (ls : List Line), ∀ x ∈ dedupCluster ls, x ∈ ls := by
  intro ls
  induction ls using dedupCluster.induct with
  | case1 => intro x hx; simp [dedupCluster] at hx
  | case2 d rest ih =>
    intro x hx
    rw [dedupCluster] at hx
    rcases List.mem_cons.mp hx with hx | hx
    · rcases bestBy_eq_or_mem len2 (simSplit d rest).1 d with h | h
      · exact (hx ▸ h) ▸ List.mem_cons_self _ _
      · exact List.mem_cons_of_mem _
          (simSplit_fst_subset d rest _ (hx ▸ h))
    · exact List.mem_cons_of_mem _
        (simSplit_snd_subset d rest _ (ih x hx))

/-! ### C1: bounds of `extend_line_to_full_height` -/

/-- C1 (amended): for every frame with `height ≥ 1` and `width ≥ 1`, the
line returned by `extend_line_to_full_height` has y-coordinates `0` and
`height-1`, and its x-coordinates lie in `[0, width-1]` whenever the
input line is non-vertical (`|x2-x1| ≥ 1e-6`) — the non-vertical branch
clamps both x-coordinates — or the input is vertical with `x1` itself
already in `[0, width-1]`; the vertical branch copies `x1` without
clamping. -/
theorem c1_extend_endpoints_in_bounds (l : Line) (h w : ℚ)
    (_hh : 1 ≤ h) (hw : 1 ≤ w)
    (hcase : ¬ absQ (l.x2 - l.x1) < eps ∨ (0 ≤ l.x1 ∧ l.x1 ≤ w - 1)) :
    (extendLine l h w).y1 = 0 ∧ (extendLine l h w).y2 = h - 1 ∧
    0 ≤ (extendLine l h w).x1 ∧ (extendLine l h w).x1 ≤ w - 1 ∧
    0 ≤ (extendLine l h w).x2 ∧ (extendLine l h w).x2 ≤ w - 1 := by
  by_cases hv : absQ (l.x2 - l.x1) < eps
  · have hx : 0 ≤ l.x1 ∧ l.x1 ≤ w - 1 := by
      rcases hcase with hc | hc
      · exact absurd hv hc
      · exact hc
    unfold extendLine
    rw [if_pos hv]
    exact ⟨rfl, rfl,
      (truncQ_bounds_of_mem le_rfl hx.1 hx.2).1,
      (truncQ_bounds_of_mem le_rfl hx.1 hx.2).2,
      (truncQ_bounds_of_mem le_rfl hx.1 hx.2).1,
      (truncQ_bounds_of_mem le_rfl hx.1 hx.2).2⟩
  · unfold extendLine
    rw [if_neg hv]
    exact ⟨rfl, rfl,
      (truncQ_clamp_bounds hw).1, (truncQ_clamp_bounds hw).2,
      (truncQ_clamp_bounds hw).1, (truncQ_clamp_bounds hw).2⟩

/-- C1 (counterexample): a vertical input line at `x = 900` in an
`800 × 480` frame is returned with both x-coordinates at `900`, outside
`[0, 799]` — the vertical branch performs no clamping. -/
theorem c1_counterexample :
    (1 : ℚ) ≤ 480 ∧ (1 : ℚ) ≤ 800 ∧
    extendLine ⟨900, 0, 900, 100⟩ 480 800 = ⟨900, 0, 900, 479⟩ ∧
    ¬ (extendLine ⟨900, 0, 900, 100⟩ 480 800).x1 ≤ 800 - 1 := by
  have he : extendLine ⟨900, 0, 900, 100⟩ 480 800 = ⟨900, 0, 900, 479⟩ := by
    norm_num [extendLine, absQ, eps, truncQ]
  refine ⟨by norm_num, by norm_num, he, ?_⟩
  rw [he]
  norm_num

/-- C1 (witness): the amended theorem applied to the non-vertical line
`(10, 20, 110, 70)` in an `800 × 480` frame. -/
theorem c1_witness :
    ((1 : ℚ) ≤ 480 ∧ (1 : ℚ) ≤ 800 ∧
      ¬ absQ ((⟨10, 20, 110, 70⟩ : Line).x2 - (⟨10, 20, 110, 70⟩ : Line).x1) < eps) ∧
    ((extendLine ⟨10, 20, 110, 70⟩ 480 800).y1 = 0 ∧
      (extendLine ⟨10, 20, 110, 70⟩ 480 800).y2 = 480 - 1 ∧
      0 ≤ (extendLine ⟨10, 20, 110, 70⟩ 480 800).x1 ∧
      (extendLine ⟨10, 20, 110, 70⟩ 480 800).x1 ≤ 800 - 1 ∧
      0 ≤ (extendLine ⟨10, 20, 110, 70⟩ 480 800).x2 ∧
      (extendLine ⟨10, 20, 110, 70⟩ 480 800).x2 ≤ 800 - 1) :=
  ⟨⟨by norm_num, by norm_num, by norm_num [absQ, eps]⟩,
    c1_extend_endpoints_in_bounds ⟨10, 20, 110, 70⟩ 480 800
      (by norm_num) (by norm_num) (Or.inl (by norm_num [absQ, eps]))⟩

/-! ### C2: the no-lane sentinel of the navigation analyzer -/

/-- C2: with an empty lane sequence `get_lane_center` returns the
`(None, None)` sentinel rather than raising, `recommend_direction` maps
a `None` center to the label `"No lane detected"`, and that label is
distinct from the `"Go Forward ⬆️"` label produced for a perfectly
centered lane (center at `width/2`). -/
theorem c2_no_lane_sentinel (h w tf : ℚ) (hw : 0 ≤ w) (htf : 0 ≤ tf) :
    getLaneCenter [] h w = none ∧
    recommendDirection none w tf = "No lane detected" ∧
    recommendDirection (some (w / 2)) w tf = "Go Forward ⬆️" ∧
    recommendDirection none w tf ≠ recommendDirection (some (w / 2)) w tf := by
  have htol : 0 ≤ w * tf := mul_nonneg hw htf
  have hfwd : recommendDirection (some (w / 2)) w tf = "Go Forward ⬆️" := by
    have h0 : w / 2 - w / 2 = 0 := sub_self _
    simp only [recommendDirection, h0]
    rw [if_neg (by simpa using not_lt.mpr htol), if_neg (not_lt.mpr htol)]
  refine ⟨rfl, rfl, hfwd, ?_⟩
  rw [hfwd]
  intro hcontra
  exact (by decide : ("No lane detected" : String) ≠ "Go Forward ⬆️") hcontra

/-- C2 (witness): the sentinel theorem applied at frame height `480`,
width `800` and the default tolerance factor `0.08`. -/
theorem c2_witness :
    ((0 : ℚ) ≤ 800 ∧ (0 : ℚ) ≤ 8 / 100) ∧
    (getLaneCenter [] 480 800 = none ∧
      recommendDirection none 800 (8 / 100) = "No lane detected" ∧
      recommendDirection (some (800 / 2)) 800 (8 / 100) = "Go Forward ⬆️" ∧
      recommendDirection none 800 (8 / 100) ≠
        recommendDirection (some (800 / 2)) 800 (8 / 100)) :=
  ⟨⟨by norm_num, by norm_num⟩,
    c2_no_lane_sentinel 480 800 (8 / 100) (by norm_num) (by norm_num)⟩

/-! ### C6: the side classifier -/

theorem mem_cons_iff_skip {x l : Line} {L rest : List Line} {P : Line → Prop}
    (hl : ¬ P l) (ih : x ∈ L ↔ x ∈ rest ∧ P x) :
    x ∈ L ↔ x ∈ l :: rest ∧ P x := by
  rw [ih, List.mem_cons]
  constructor
  · rintro ⟨hm, hP⟩
    exact ⟨Or.inr hm, hP⟩
  · rintro ⟨rfl | hm, hP⟩
    · exact absurd hP hl
    · exact ⟨hm, hP⟩

theorem mem_cons_iff_add {x l : Line} {L rest : List Line} {P : Line → Prop}
    (hl : P l) (ih : x ∈ L ↔ x ∈ rest ∧ P x) :
    x ∈ l :: L ↔ x ∈ l :: rest ∧ P x := by
  rw [List.mem_cons, List.mem_cons, ih]
  constructor
  · rintro (rfl | ⟨hm, hP⟩)
    · exact ⟨Or.inl rfl, hl⟩
    · exact ⟨Or.inr hm, hP⟩
  · rintro ⟨rfl | hm, hP⟩
    · exact Or.inl rfl
    · exact Or.inr ⟨hm, hP⟩

theorem mem_classify_left (w : ℚ) (x : Line) :
    ∀ ls : List Line, x ∈ (classifyLines ls w).1 ↔ x ∈ ls ∧ leftCondP w x := by
  intro ls
  induction ls with
  | nil => simp [classifyLines]
  | cons l rest ih =>
    simp only [classifyLines]
    by_cases h1 : absQ (l.x2 - l.x1) < eps
    · rw [if_pos h1]
      exact mem_cons_iff_skip (fun hP => hP.1 h1) ih
    · rw [if_neg h1]
      by_cases h2 : midX l < w / 2
      · rw [if_pos h2]
        by_cases h3 : slopeQ l < -(1/5)
        · rw [if_pos h3]
          exact mem_cons_iff_add ⟨h1, h2, h3⟩ ih
        · rw [if_neg h3]
          exact mem_cons_iff_skip (fun hP => h3 hP.2.2) ih
      · rw [if_neg h2]
        by_cases h3 : 1/5 < slopeQ l
        · rw [if_pos h3]
          exact mem_cons_iff_skip (fun hP => h2 hP.2.1) ih
        · rw [if_neg h3]
          exact mem_cons_iff_skip (fun hP => h2 hP.2.1) ih

theorem mem_classify_right (w : ℚ) (x : Line) :
    ∀ ls : List Line, x ∈ (classifyLines ls w).2 ↔ x ∈ ls ∧ rightCondP w x := by
  intro ls
  induction ls with
  | nil => simp [classifyLines]
  | cons l rest ih =>
    simp only [classifyLines]
    by_cases h1 : absQ (l.x2 - l.x1) < eps
    · rw [if_pos h1]
      exact mem_cons_iff_skip (fun hP => hP.1 h1) ih
    · rw [if_neg h1]
      by_cases h2 : midX l < w / 2
      · rw [if_pos h2]
        by_cases h3 : slopeQ l < -(1/5)
        · rw [if_pos h3]
          exact mem_cons_iff_skip (fun hP => hP.2.1 h2) ih
        · rw [if_neg h3]
          exact mem_cons_iff_skip (fun hP => hP.2.1 h2) ih
      · rw [if_neg h2]
        by_cases h3 : 1/5 < slopeQ l
        · rw [if_pos h3]
          exact mem_cons_iff_add ⟨h1, h2, h3⟩ ih
        · rw [if_neg h3]
          exact mem_cons_iff_skip (fun hP => h3 hP.2.2) ih

/-- C6: a segment is in the classifier's left group exactly when it is
non-vertical, its midpoint-x is left of the frame center and its slope
is `< -0.2` (so the slope `-0.5`, midpoint-left example classifies
left); it is in the right group exactly when it is non-vertical, its
midpoint-x is not left of center and its slope is `> 0.2`; and no
segment is placed in both groups. -/
theorem c6_classifier_membership (ls : List Line) (w : ℚ) (x : Line) :
    (x ∈ (classifyLines ls w).1 ↔ x ∈ ls ∧ leftCondP w x) ∧
    (x ∈ (classifyLines ls w).2 ↔ x ∈ ls ∧ rightCondP w x) ∧
    ¬ (x ∈ (classifyLines ls w).1 ∧ x ∈ (classifyLines ls w).2) := by
  refine ⟨mem_classify_left w x ls, mem_classify_right w x ls, ?_⟩
  rintro ⟨hL, hR⟩
  have h1 := ((mem_classify_left w x ls).mp hL).2.2.1
  have h2 := ((mem_classify_right w x ls).mp hR).2.2.1
  exact h2 h1

/-- C6 (witness): the segment `(100, 100, 300, 0)` (slope `-0.5`,
midpoint-x `200`, left of the `800`-frame center) is classified left
and not right. -/
theorem c6_witness :
    (⟨100, 100, 300, 0⟩ : Line) ∈ (classifyLines [⟨100, 100, 300, 0⟩] 800).1 ∧
    (⟨100, 100, 300, 0⟩ : Line) ∉ (classifyLines [⟨100, 100, 300, 0⟩] 800).2 := by
  have t := c6_classifier_membership [⟨100, 100, 300, 0⟩] 800 ⟨100, 100, 300, 0⟩
  have hmem : (⟨100, 100, 300, 0⟩ : Line) ∈ (classifyLines [⟨100, 100, 300, 0⟩] 800).1 :=
    t.1.mpr ⟨List.mem_cons_self _ _, by norm_num [leftCondP, absQ, eps, midX, slopeQ]⟩
  exact ⟨hmem, fun hm => t.2.2 ⟨hmem, hm⟩⟩

/-! ### C9: `get_steering_angle` -/

/-- C9: with no lane (`None` center) `get_steering_angle` returns
exactly `0`, the same value it returns for a perfectly centered lane
(center at `width/2`), so the two situations are indistinguishable from
the angle alone; and for every non-`None` center the returned angle is
clamped into `[-max_angle, max_angle]`. -/
theorem c9_steering_angle_neutral (w m : ℚ) (hm : 0 ≤ m) :
    getSteeringAngle none w m = 0 ∧
    getSteeringAngle (some (w / 2)) w m = getSteeringAngle none w m ∧
    ∀ c : ℚ, -m ≤ getSteeringAngle (some c) w m ∧
      getSteeringAngle (some c) w m ≤ m := by
  have hnone : getSteeringAngle none w m = 0 := rfl
  have hcen : getSteeringAngle (some (w / 2)) w m = 0 := by
    simp only [getSteeringAngle, sub_self, zero_div, zero_mul]
    rw [min_eq_right hm, max_eq_right (neg_nonpos.mpr hm)]
  refine ⟨hnone, by rw [hcen, hnone], ?_⟩
  intro c
  simp only [getSteeringAngle]
  exact ⟨le_max_left _ _, max_le (by linarith) (min_le_left _ _)⟩

/-- C9 (witness): the steering-angle theorem at width `800` and the
default `max_angle = 30`, with the range conclusion instantiated at the
center `777`. -/
theorem c9_witness :
    (0 : ℚ) ≤ 30 ∧
    getSteeringAngle none 800 30 = 0 ∧
    getSteeringAngle (some (800 / 2)) 800 30 = getSteeringAngle none 800 30 ∧
    (-30 ≤ getSteeringAngle (some 777) 800 30 ∧
      getSteeringAngle (some 777) 800 30 ≤ 30) := by
  have t := c9_steering_angle_neutral 800 30 (by norm_num)
  exact ⟨by norm_num, t.1, t.2.1, t.2.2 777⟩

/-! ### C10: `detect_lanes` produces at most one lane -/

theorem pairLanes_length_le_one (h w : ℚ) :
    ∀ L R : List Line, (pairLanes h w L R).length ≤ 1 := by
  intro L R
  cases L with
  | nil => simp [pairLanes]
  | cons l0 lt =>
    cases R with
    | nil => simp [pairLanes]
    | cons r0 rt => simp [pairLanes]

/-- C10: `detect_lanes` always returns at most one lane; it returns the
empty list whenever either side group is empty after merging (or the
deduplication aborts), and when both sides survive it returns exactly
the single lane pairing the longest merged left line with the longest
merged right line, both extended to full height. -/
theorem c10_detect_lanes_shape (h w : ℚ) (ol : Option (List Line)) :
    (detectLanes h w ol).length ≤ 1 ∧
    (∀ ls uls, ol = some ls → removeDuplicateLines ls = some uls →
      (mergeGroup (classifyLines uls w).1 = [] ∨
        mergeGroup (classifyLines uls w).2 = []) →
      detectLanes h w ol = []) ∧
    (∀ ls uls l0 lt r0 rt, ol = some ls →
      removeDuplicateLines ls = some uls →
      mergeGroup (classifyLines uls w).1 = l0 :: lt →
      mergeGroup (classifyLines uls w).2 = r0 :: rt →
      detectLanes h w ol =
        [(extendLine (bestBy len2 l0 lt) h w,
          extendLine (bestBy len2 r0 rt) h w)]) := by
  refine ⟨?_, ?_, ?_⟩
  · cases ol with
    | none => simp [detectLanes]
    | some ls =>
      simp only [detectLanes]
      cases hd : removeDuplicateLines ls with
      | none => simp [lanesOfUnique]
      | some uls =>
        cases uls with
        | nil => simp [lanesOfUnique]
        | cons u us =>
          simp only [lanesOfUnique]
          exact pairLanes_length_le_one h w _ _
  · rintro ls uls rfl hd hor
    simp only [detectLanes, hd]
    cases uls with
    | nil => simp [lanesOfUnique]
    | cons u us =>
      simp only [lanesOfUnique]
      rcases hor with hL | hR
      · rw [hL]
        rfl
      · rw [hR]
        cases mergeGroup (classifyLines (u :: us) w).1 with
        | nil => rfl
        | cons l0 lt => rfl
  · rintro ls uls l0 lt r0 rt rfl hd hL hR
    simp only [detectLanes, hd]
    cases uls with
    | nil =>
      rw [show classifyLines [] w = ([], []) from rfl] at hL
      rw [show mergeGroup [] = [] from rfl] at hL
      exact absurd hL (by simp)
    | cons u us =>
      simp only [lanesOfUnique]
      rw [hL, hR]
      rfl

/-! ### Evaluation of scenario A (two clean segments, 800 × 480) -/

theorem scenA_filter : filterKeep [segA, segB] = [segA, segB] := by
  norm_num [filterKeep, dedupKeepP, slopeQ, absQ, segA, segB]

theorem scenA_cluster : dedupCluster [segA, segB] = [segA, segB] := by
  norm_num [dedupCluster, simSplit, dedupSimP, slopeQ, midX, absQ, bestBy,
    len2, segA, segB]

theorem scenA_dedup : removeDuplicateLines [segA, segB] = some [segA, segB] := by
  simp only [removeDuplicateLines, scenA_filter, dedupOfData, scenA_cluster]

theorem scenA_classify : classifyLines [segA, segB] 800 = ([segA], [segB]) := by
  norm_num [classifyLines, midX, slopeQ, absQ, eps, segA, segB]

theorem scenA_mergeL : mergeGroup (classifyLines [segA, segB] 800).1 = [segA] := by
  rw [scenA_classify]
  norm_num [mergeGroup]

theorem scenA_mergeR : mergeGroup (classifyLines [segA, segB] 800).2 = [segB] := by
  rw [scenA_classify]
  norm_num [mergeGroup]

theorem scenA_extendL : extendLine segA 480 800 = ⟨633, 0, 101, 479⟩ := by
  norm_num [extendLine, segA, slopeQ, absQ, eps, truncQ, max_def, min_def]

theorem scenA_extendR : extendLine segB 480 800 = ⟨166, 0, 698, 479⟩ := by
  norm_num [extendLine, segB, slopeQ, absQ, eps, truncQ, max_def, min_def]

theorem scenA_detect : detectLanes 480 800 (some [segA, segB]) =
    [(extendLine segA 480 800, extendLine segB 480 800)] := by
  simp only [detectLanes, scenA_dedup, lanesOfUnique, scenA_mergeL, scenA_mergeR,
    pairLanes, bestBy]

theorem scenA_center :
    getLaneCenter [(⟨633, 0, 101, 479⟩, ⟨166, 0, 698, 479⟩)] 480 800 =
      some (799 / 2, none) := by
  norm_num [getLaneCenter, absQ, eps, max_def, min_def]

theorem scenA_forward :
    recommendDirection (some (799 / 2)) 800 (8 / 100) = "Go Forward ⬆️" := by
  norm_num [recommendDirection]

/-! ### C8: the end-to-end scenario A -/

/-- C8: on the two segments `(100, 480, 300, 300)` and
`(700, 480, 500, 300)` in an `800 × 480` frame, the pipeline produces
exactly one lane pairing the two extended input segments, the lane
center at the bottom row is `399.5` (within one pixel of the frame
center `400`, with a vertical center line reported as the infinite
slope sentinel), and the recommended direction for that center is the
forward label. -/
theorem c8_end_to_end_scenario_a :
    detectLanes 480 800 (some [segA, segB]) =
      [(extendLine segA 480 800, extendLine segB 480 800)] ∧
    extendLine segA 480 800 = ⟨633, 0, 101, 479⟩ ∧
    extendLine segB 480 800 = ⟨166, 0, 698, 479⟩ ∧
    getLaneCenter (detectLanes 480 800 (some [segA, segB])) 480 800 =
      some (799 / 2, none) ∧
    absQ (799 / 2 - 400) ≤ 1 ∧
    recommendDirection (some (799 / 2)) 800 (8 / 100) = "Go Forward ⬆️" := by
  refine ⟨scenA_detect, scenA_extendL, scenA_extendR, ?_, by norm_num [absQ],
    scenA_forward⟩
  rw [scenA_detect, scenA_extendL, scenA_extendR]
  exact scenA_center

/-- C10 (witness): the shape theorem applied to scenario A, where the
merged side groups are the singletons `[segA]` and `[segB]`. -/
theorem c10_witness :
    (removeDuplicateLines [segA, segB] = some [segA, segB] ∧
      mergeGroup (classifyLines [segA, segB] 800).1 = [segA] ∧
      mergeGroup (classifyLines [segA, segB] 800).2 = [segB]) ∧
    detectLanes 480 800 (some [segA, segB]) =
      [(extendLine (bestBy len2 segA []) 480 800,
        extendLine (bestBy len2 segB []) 480 800)] :=
  ⟨⟨scenA_dedup, scenA_mergeL, scenA_mergeR⟩,
    (c10_detect_lanes_shape 480 800 (some [segA, segB])).2.2
      [segA, segB] [segA, segB] segA [] segB [] rfl scenA_dedup
      scenA_mergeL scenA_mergeR⟩

/-! ### C7: slope signs of the assembled lane -/

theorem extendLine_eq_of_slope (l : Line) (h w : ℚ)
    (hnv : ¬ absQ (l.x2 - l.x1) < eps) (hns : eps < absQ (slopeQ l)) :
    extendLine l h w =
      ⟨truncQ (max 0 (min (w - 1)
          ((0 - (l.y1 - slopeQ l * l.x1)) / slopeQ l))), 0,
       truncQ (max 0 (min (w - 1)
          ((h - 1 - (l.y1 - slopeQ l * l.x1)) / slopeQ l))), h - 1⟩ := by
  unfold extendLine
  rw [if_neg hnv]
  simp only [if_pos hns]

/-- Going down the image, a classified-left (negative-slope) line is
extended with non-increasing x. -/
theorem extendLine_x_antitone (l : Line) (h w : ℚ) (hh : 1 ≤ h)
    (hnv : ¬ absQ (l.x2 - l.x1) < eps) (hs : slopeQ l < -(1/5)) :
    (extendLine l h w).x2 ≤ (extendLine l h w).x1 := by
  have hsneg : slopeQ l < 0 := by linarith
  have hs0 : slopeQ l ≠ 0 := ne_of_lt hsneg
  have hns : eps < absQ (slopeQ l) := by
    rw [absQ_eq_abs, abs_of_neg hsneg]
    rw [eps]
    linarith
  rw [extendLine_eq_of_slope l h w hnv hns]
  set b := l.y1 - slopeQ l * l.x1 with hb
  have h2 : (0 - b) / slopeQ l - (h - 1 - b) / slopeQ l =
      (h - 1) / (-slopeQ l) := by
    rw [div_sub_div_same, div_neg]
    have hn : 0 - b - (h - 1 - b) = -(h - 1) := by ring
    rw [hn, neg_div]
  have h1 : 0 ≤ (h - 1) / (-slopeQ l) := div_nonneg (by linarith) (by linarith)
  have hkey : (h - 1 - b) / slopeQ l ≤ (0 - b) / slopeQ l := by linarith
  exact truncQ_mono (max_le_max le_rfl (min_le_min le_rfl hkey))

/-- Going down the image, a classified-right (positive-slope) line is
extended with non-decreasing x. -/
theorem extendLine_x_monotone (l : Line) (h w : ℚ) (hh : 1 ≤ h)
    (hnv : ¬ absQ (l.x2 - l.x1) < eps) (hs : 1/5 < slopeQ l) :
    (extendLine l h w).x1 ≤ (extendLine l h w).x2 := by
  have hspos : 0 < slopeQ l := by linarith
  have hs0 : slopeQ l ≠ 0 := ne_of_gt hspos
  have hns : eps < absQ (slopeQ l) := by
    rw [absQ_eq_abs, abs_of_pos hspos]
    rw [eps]
    linarith
  rw [extendLine_eq_of_slope l h w hnv hns]
  set b := l.y1 - slopeQ l * l.x1 with hb
  have h2 : (h - 1 - b) / slopeQ l - (0 - b) / slopeQ l =
      (h - 1) / slopeQ l := by
    rw [div_sub_div_same]
    have hn : h - 1 - b - (0 - b) = h - 1 := by ring
    rw [hn]
  have h1 : 0 ≤ (h - 1) / slopeQ l := div_nonneg (by linarith) (by linarith)
  have hkey : (0 - b) / slopeQ l ≤ (h - 1 - b) / slopeQ l := by linarith
  exact truncQ_mono (max_le_max le_rfl (min_le_min le_rfl hkey))

/-- C7 (amended): when each side holds exactly one classified line (so
the per-side merge step is the identity), the assembled lane pairs a
left line whose extension has non-increasing x going down the image
(negative slope, or vertical after clamping) with a right line whose
extension has non-decreasing x (positive slope, or vertical after
clamping); after a genuine merge the fitted line's slope can change
sign, so the opposite-sign invariant does not survive merging in
general. -/
theorem c7_lane_slopes_opposite_when_unmerged (ls uls : List Line)
    (l r : Line) (h w : ℚ) (hh : 1 ≤ h)
    (hd : removeDuplicateLines ls = some uls)
    (hc : classifyLines uls w = ([l], [r])) :
    detectLanes h w (some ls) = [(extendLine l h w, extendLine r h w)] ∧
    (extendLine l h w).x2 ≤ (extendLine l h w).x1 ∧
    (extendLine r h w).x1 ≤ (extendLine r h w).x2 ∧
    (extendLine l h w).y1 = 0 ∧ (extendLine l h w).y2 = h - 1 ∧
    (extendLine r h w).y1 = 0 ∧ (extendLine r h w).y2 = h - 1 := by
  have hlmem : l ∈ (classifyLines uls w).1 := by
    rw [hc]
    exact List.mem_cons_self _ _
  have hrmem : r ∈ (classifyLines uls w).2 := by
    rw [hc]
    exact List.mem_cons_self _ _
  have hlP := ((mem_classify_left w l uls).mp hlmem).2
  have hrP := ((mem_classify_right w r uls).mp hrmem).2
  have hdet : detectLanes h w (some ls) =
      [(extendLine l h w, extendLine r h w)] := by
    simp only [detectLanes, hd]
    cases uls with
    | nil =>
      rw [show classifyLines [] w = ([], []) from rfl] at hc
      exact absurd hc (by simp)
    | cons u us =>
      simp only [lanesOfUnique, hc]
      rw [show mergeGroup [l] = [l] by norm_num [mergeGroup],
        show mergeGroup [r] = [r] by norm_num [mergeGroup]]
      simp only [pairLanes, bestBy]
  refine ⟨hdet, extendLine_x_antitone l h w hh hlP.1 hlP.2.2,
    extendLine_x_monotone r h w hh hrP.1 hrP.2.2, ?_, ?_, ?_, ?_⟩
  · by_cases hv : absQ (l.x2 - l.x1) < eps
    · exact absurd hv hlP.1
    · unfold extendLine
      rw [if_neg hv]
  · by_cases hv : absQ (l.x2 - l.x1) < eps
    · exact absurd hv hlP.1
    · unfold extendLine
      rw [if_neg hv]
  · by_cases hv : absQ (r.x2 - r.x1) < eps
    · exact absurd hv hrP.1
    · unfold extendLine
      rw [if_neg hv]
  · by_cases hv : absQ (r.x2 - r.x1) < eps
    · exact absurd hv hrP.1
    · unfold extendLine
      rw [if_neg hv]

/-- C7 (witness): the amended theorem applied to scenario A, where each
side group is the singleton `[segA]` / `[segB]`. -/
theorem c7_witness :
    ((1 : ℚ) ≤ 480 ∧
      removeDuplicateLines [segA, segB] = some [segA, segB] ∧
      classifyLines [segA, segB] 800 = ([segA], [segB])) ∧
    (detectLanes 480 800 (some [segA, segB]) =
        [(extendLine segA 480 800, extendLine segB 480 800)] ∧
      (extendLine segA 480 800).x2 ≤ (extendLine segA 480 800).x1 ∧
      (extendLine segB 480 800).x1 ≤ (extendLine segB 480 800).x2 ∧
      (extendLine segA 480 800).y1 = 0 ∧
      (extendLine segA 480 800).y2 = 480 - 1 ∧
      (extendLine segB 480 800).y1 = 0 ∧
      (extendLine segB 480 800).y2 = 480 - 1) :=
  ⟨⟨by norm_num, scenA_dedup, scenA_classify⟩,
    c7_lane_slopes_opposite_when_unmerged [segA, segB] [segA, segB]
      segA segB 480 800 (by norm_num) scenA_dedup scenA_classify⟩

/-! ### C7 counterexample: merging can flip a side's slope sign -/

theorem cex7_filter :
    filterKeep [segL1, segL2, segR1] = [segL1, segL2, segR1] := by
  norm_num [filterKeep, dedupKeepP, slopeQ, absQ, segL1, segL2, segR1]

theorem cex7_split1 : simSplit segL1 [segL2, segR1] = ([], [segL2, segR1]) := by
  norm_num [simSplit, dedupSimP, slopeQ, midX, absQ, segL1, segL2, segR1]

theorem cex7_split2 : simSplit segL2 [segR1] = ([], [segR1]) := by
  norm_num [simSplit, dedupSimP, slopeQ, midX, absQ, segL2, segR1]

theorem simSplit_nil (a : Line) : simSplit a [] = ([], []) := rfl

theorem cex7_cluster :
    dedupCluster [segL1, segL2, segR1] = [segL1, segL2, segR1] := by
  simp only [dedupCluster, cex7_split1, cex7_split2, simSplit_nil, bestBy]

theorem cex7_dedup :
    removeDuplicateLines [segL1, segL2, segR1] = some [segL1, segL2, segR1] := by
  simp only [removeDuplicateLines, cex7_filter, dedupOfData, cex7_cluster]

theorem cex7_classify :
    classifyLines [segL1, segL2, segR1] 1000 = ([segL1, segL2], [segR1]) := by
  norm_num [classifyLines, midX, slopeQ, absQ, eps, segL1, segL2, segR1]

theorem cex7_msplit : mergeSplit segL1 [segL2] = ([segL2], []) := by
  norm_num [mergeSplit, mergeSimP, finSlopeP, slopeQ, absQ, eps, segL1, segL2]

theorem cex7_twox : hasTwoXP [segL1, segL2] := by
  simp only [hasTwoXP, allX, segL1, segL2, hasTwo, existsNeQ]
  norm_num

theorem cex7_fit : fitLineOf [segL1, segL2] = ⟨0, 93, 210, 303⟩ := by
  norm_num [fitLineOf, allX, allY, sumQ, dotQ, minQl, maxQl, truncQ,
    min_def, max_def, segL1, segL2]

theorem cex7_mc : mergeCluster [segL1, segL2] = [⟨0, 93, 210, 303⟩] := by
  simp [mergeCluster, cex7_msplit, clusterRep, cex7_twox, cex7_fit]

theorem cex7_mergeL :
    mergeGroup (classifyLines [segL1, segL2, segR1] 1000).1 =
      [⟨0, 93, 210, 303⟩] := by
  rw [cex7_classify]
  show mergeGroup [segL1, segL2] = _
  rw [mergeGroup, if_neg (by simp : ¬ ([segL1, segL2].length ≤ 1))]
  exact cex7_mc

theorem cex7_mergeR :
    mergeGroup (classifyLines [segL1, segL2, segR1] 1000).2 = [segR1] := by
  rw [cex7_classify]
  norm_num [mergeGroup]

theorem cex7_extendL : extendLine ⟨0, 93, 210, 303⟩ 600 1000 = ⟨0, 0, 506, 599⟩ := by
  norm_num [extendLine, slopeQ, absQ, eps, truncQ, max_def, min_def]

theorem cex7_extendR : extendLine segR1 600 1000 = ⟨0, 0, 999, 599⟩ := by
  norm_num [extendLine, segR1, slopeQ, absQ, eps, truncQ, max_def, min_def]

theorem cex7_detect :
    detectLanes 600 1000 (some [segL1, segL2, segR1]) =
      [(⟨0, 0, 506, 599⟩, ⟨0, 0, 999, 599⟩)] := by
  simp only [detectLanes, cex7_dedup, lanesOfUnique, cex7_mergeL, cex7_mergeR,
    pairLanes, bestBy, cex7_extendL, cex7_extendR]

/-- C7 (counterexample): on three segments — two left lines of slope
`-0.3` (vertically offset from each other) and one right line of slope
`+0.3` — `detect_lanes` on a `1000 × 600` frame merges the two left
lines into a least-squares fit of positive slope, so the produced lane
pairs two lines that both run left-to-right going down the image: the
left and right lines of the lane have the same slope sign. -/
theorem c7_counterexample :
    slopeQ segL1 < 0 ∧ slopeQ segL2 < 0 ∧ 0 < slopeQ segR1 ∧
    detectLanes 600 1000 (some [segL1, segL2, segR1]) =
      [(⟨0, 0, 506, 599⟩, ⟨0, 0, 999, 599⟩)] ∧
    0 < slopeQ (⟨0, 0, 506, 599⟩ : Line) ∧
    0 < slopeQ (⟨0, 0, 999, 599⟩ : Line) :=
  ⟨by norm_num [slopeQ, segL1], by norm_num [slopeQ, segL2],
    by norm_num [slopeQ, segR1], cex7_detect,
    by norm_num [slopeQ], by norm_num [slopeQ]⟩

/-! ### C3: the side merger -/

theorem mergeSplit_nil (a : Line) : mergeSplit a [] = ([], []) := rfl

theorem mergeSplit_all (a : Line) :
    ∀ ls : List Line, (∀ b ∈ ls, mergeSimP a b) → mergeSplit a ls = (ls, []) := by
  intro ls
  induction ls with
  | nil => intro _; rfl
  | cons b r ih =>
    intro hsim
    simp only [mergeSplit]
    rw [if_pos (hsim b (List.mem_cons_self _ _))]
    rw [ih (fun c hc => hsim c (List.mem_cons_of_mem _ hc))]

/-- C3 (amended): whenever the whole group forms a single merge cluster
(every other line has finite slope within `0.15` of the seed's), a
group of two or more segments is merged into exactly one line — the
least-squares fit through the union of all the group's endpoints, or
the longest original segment if all those endpoints share one x-value.
A group that splits into several clusters (slope gaps `≥ 0.15`)
produces one line per cluster instead. -/
theorem c3_merge_single_cluster (d : Line) (rest : List Line)
    (hne : rest ≠ []) (hsim : ∀ b ∈ rest, mergeSimP d b) :
    mergeGroup (d :: rest) =
      if hasTwoXP (d :: rest) then [fitLineOf (d :: rest)]
      else [bestBy len2 d rest] := by
  obtain ⟨s, ss, rfl⟩ := List.exists_cons_of_ne_nil hne
  rw [mergeGroup,
    if_neg (by simp only [List.length_cons]; omega :
      ¬ ((d :: s :: ss).length ≤ 1))]
  rw [mergeCluster]
  have hsplit : mergeSplit d (s :: ss) = (s :: ss, []) :=
    mergeSplit_all d (s :: ss) hsim
  rw [hsplit]
  rw [show ((s :: ss, ([] : List Line)).1) = s :: ss from rfl,
    show ((s :: ss, ([] : List Line)).2) = [] from rfl]
  rw [show mergeCluster [] = [] by rw [mergeCluster], List.append_nil]
  rfl

/-- C3 (witness): the single-cluster theorem applied to the two-segment
group `[segM1, segM3]` whose slopes agree. -/
theorem c3_witness :
    (([segM3] : List Line) ≠ [] ∧ ∀ b ∈ [segM3], mergeSimP segM1 b) ∧
    mergeGroup [segM1, segM3] =
      (if hasTwoXP [segM1, segM3] then [fitLineOf [segM1, segM3]]
       else [bestBy len2 segM1 [segM3]]) := by
  have hsim : ∀ b ∈ [segM3], mergeSimP segM1 b := by
    intro b hb
    rw [List.mem_singleton] at hb
    subst hb
    norm_num [mergeSimP, finSlopeP, slopeQ, absQ, eps, segM1, segM3]
  exact ⟨⟨by simp, hsim⟩,
    c3_merge_single_cluster segM1 [segM3] (by simp) hsim⟩

theorem cex3_msplit : mergeSplit segM1 [segM2] = ([], [segM2]) := by
  norm_num [mergeSplit, mergeSimP, finSlopeP, slopeQ, absQ, eps, segM1, segM2]

theorem cex3_mc : mergeCluster [segM1, segM2] = [segM1, segM2] := by
  simp [mergeCluster, cex3_msplit, mergeSplit_nil, clusterRep]

/-- C3 (counterexample): the two-segment group with slopes `0.3` and
`0.6` (slope gap `0.3 ≥ 0.15`) forms two clusters, so
`merge_similar_lines_in_group` returns two lines, not the single
least-squares fit the claim asserts for every group of two or more
segments. -/
theorem c3_counterexample :
    mergeGroup [segM1, segM2] = [segM1, segM2] ∧
    (mergeGroup [segM1, segM2]).length = 2 := by
  have hm : mergeGroup [segM1, segM2] = [segM1, segM2] := by
    rw [mergeGroup,
      if_neg (by simp only [List.length_cons]; omega :
        ¬ (([segM1, segM2] : List Line).length ≤ 1))]
    exact cex3_mc
  exact ⟨hm, by rw [hm]; rfl⟩

/-! ### C4: idempotence of the deduplicator -/

theorem filterKeep_all :
    ∀ ls : List Line, (∀ l ∈ ls, dedupKeepP l) → filterKeep ls = ls := by
  intro ls
  induction ls with
  | nil => intro _; rfl
  | cons l r ih =>
    intro hk
    rw [filterKeep, if_pos (hk l (List.mem_cons_self _ _))]
    rw [ih (fun c hc => hk c (List.mem_cons_of_mem _ hc))]

theorem filterKeep_subset :
    ∀ ls : List Line, ∀ x ∈ filterKeep ls, x ∈ ls := by
  intro ls
  induction ls with
  | nil => intro x hx; exact absurd hx (by simp [filterKeep])
  | cons l r ih =>
    intro x hx
    rw [filterKeep] at hx
    by_cases hk : dedupKeepP l
    · rw [if_pos hk] at hx
      rcases List.mem_cons.mp hx with rfl | hx
      · exact List.mem_cons_self _ _
      · exact List.mem_cons_of_mem _ (ih x hx)
    · rw [if_neg hk] at hx
      exact List.mem_cons_of_mem _ (ih x hx)

theorem simSplit_none (a : Line) :
    ∀ ls : List Line, (∀ b ∈ ls, ¬ dedupSimP a b) → simSplit a ls = ([], ls) := by
  intro ls
  induction ls with
  | nil => intro _; rfl
  | cons b r ih =>
    intro hdis
    simp only [simSplit]
    rw [if_neg (hdis b (List.mem_cons_self _ _))]
    rw [ih (fun c hc => hdis c (List.mem_cons_of_mem _ hc))]

theorem dedupCluster_of_pairwise_dissimilar :
    ∀ ls : List Line, List.Pairwise (fun a b => ¬ dedupSimP a b) ls →
      dedupCluster ls = ls := by
  intro ls
  induction ls using dedupCluster.induct with
  | case1 => intro _; rw [dedupCluster]
  | case2 d rest ih =>
    intro hp
    rcases List.pairwise_cons.mp hp with ⟨hd, hrest⟩
    have hsplit : simSplit d rest = ([], rest) := simSplit_none d rest hd
    have h1 : (simSplit d rest).1 = [] := by rw [hsplit]
    have h2 : (simSplit d rest).2 = rest := by rw [hsplit]
    have hrec := ih (by rw [h2]; exact hrest)
    rw [h2] at hrec
    rw [dedupCluster, h1, h2, hrec]
    rfl

/-- C4 (amended): `remove_duplicate_lines` returns its input unchanged
on any list whose segments all pass the pre-filter and are pairwise
dissimilar (each pair differs by `≥ 0.08` in slope or `≥ 50` in
midpoint-x) — on such lists it is idempotent.  On general inputs a
second application can merge representatives coming from different
first-pass clusters, so the deduplicator is not idempotent. -/
theorem c4_dedup_fixed_on_dissimilar (ls : List Line)
    (hkeep : ∀ l ∈ ls, dedupKeepP l)
    (hdis : List.Pairwise (fun a b => ¬ dedupSimP a b) ls) :
    removeDuplicateLines ls = some ls := by
  cases ls with
  | nil => rfl
  | cons l rest =>
    simp only [removeDuplicateLines]
    rw [filterKeep_all _ hkeep]
    simp only [dedupOfData]
    rw [dedupCluster_of_pairwise_dissimilar _ hdis]

/-- C4 (witness): the fixed-point theorem applied to the two
dissimilar segments `segM1` (slope `0.3`) and `segM2` (slope `0.6`). -/
theorem c4_witness :
    ((∀ l ∈ [segM1, segM2], dedupKeepP l) ∧
      List.Pairwise (fun a b => ¬ dedupSimP a b) [segM1, segM2]) ∧
    removeDuplicateLines [segM1, segM2] = some [segM1, segM2] := by
  have hk : ∀ l ∈ [segM1, segM2], dedupKeepP l := by
    intro l hl
    rcases List.mem_cons.mp hl with rfl | hl
    · norm_num [dedupKeepP, slopeQ, absQ, segM1]
    · rw [List.mem_singleton] at hl
      subst hl
      norm_num [dedupKeepP, slopeQ, absQ, segM2]
  have hp : List.Pairwise (fun a b => ¬ dedupSimP a b) [segM1, segM2] := by
    refine List.Pairwise.cons ?_ (List.pairwise_singleton _ _)
    intro b hb
    rw [List.mem_singleton] at hb
    subst hb
    norm_num [dedupSimP, slopeQ, midX, absQ, segM1, segM2]
  exact ⟨⟨hk, hp⟩, c4_dedup_fixed_on_dissimilar [segM1, segM2] hk hp⟩

theorem cex4_filter1 :
    filterKeep [segK1, segK2, segK3] = [segK1, segK2, segK3] := by
  norm_num [filterKeep, dedupKeepP, slopeQ, absQ, segK1, segK2, segK3]

theorem cex4_split1 : simSplit segK1 [segK2, segK3] = ([segK2], [segK3]) := by
  norm_num [simSplit, dedupSimP, slopeQ, midX, absQ, segK1, segK2, segK3]

theorem cex4_best1 : bestBy len2 segK1 [segK2] = segK2 := by
  norm_num [bestBy, len2, segK1, segK2]

theorem cex4_cluster1 :
    dedupCluster [segK1, segK2, segK3] = [segK2, segK3] := by
  simp only [dedupCluster, cex4_split1, simSplit_nil, cex4_best1, bestBy]

theorem cex4_dedup1 :
    removeDuplicateLines [segK1, segK2, segK3] = some [segK2, segK3] := by
  simp only [removeDuplicateLines, cex4_filter1, dedupOfData, cex4_cluster1]

theorem cex4_filter2 : filterKeep [segK2, segK3] = [segK2, segK3] := by
  norm_num [filterKeep, dedupKeepP, slopeQ, absQ, segK2, segK3]

theorem cex4_split2 : simSplit segK2 [segK3] = ([segK3], []) := by
  norm_num [simSplit, dedupSimP, slopeQ, midX, absQ, segK2, segK3]

theorem cex4_best2 : bestBy len2 segK2 [segK3] = segK2 := by
  norm_num [bestBy, len2, segK2, segK3]

theorem cex4_cluster2 : dedupCluster [segK2, segK3] = [segK2] := by
  simp only [dedupCluster, cex4_split2, simSplit_nil, cex4_best2, bestBy]

theorem cex4_dedup2 : removeDuplicateLines [segK2, segK3] = some [segK2] := by
  simp only [removeDuplicateLines, cex4_filter2, dedupOfData, cex4_cluster2]

/-- C4 (counterexample): on `[segK1, segK2, segK3]` (all slope `0.5`,
midpoints `0`, `49`, `60`) the first pass clusters `segK1` with `segK2`
(keeping the longer `segK2`) and leaves `segK3` alone, producing
`[segK2, segK3]`; but `segK2` and `segK3` (midpoints `49` and `60`) are
themselves similar, so a second application merges them to `[segK2]` —
the output set shrinks, refuting idempotence. -/
theorem c4_counterexample :
    removeDuplicateLines [segK1, segK2, segK3] = some [segK2, segK3] ∧
    removeDuplicateLines [segK2, segK3] = some [segK2] ∧
    segK3 ∈ [segK2, segK3] ∧ segK3 ∉ [segK2] :=
  ⟨cex4_dedup1, cex4_dedup2, by simp,
    by norm_num [segK2, segK3, List.mem_singleton]⟩

/-! ### C5: order (in)dependence of the deduplicator -/

/-- C5 (amended): the deduplicator's representatives are always drawn
from the input list, but the greedy, input-order-seeded clustering
makes the representative *set* genuinely order-dependent (beyond length
tie-breaking), as the counterexample shows. -/
theorem c5_dedup_output_subset (ls out : List Line)
    (h : removeDuplicateLines ls = some out) :
    ∀ x ∈ out, x ∈ ls := by
  cases ls with
  | nil =>
    simp only [removeDuplicateLines, Option.some.injEq] at h
    subst h
    intro x hx
    exact absurd hx (by simp)
  | cons l rest =>
    intro x hx
    simp only [removeDuplicateLines] at h
    cases hf : filterKeep (l :: rest) with
    | nil =>
      rw [hf] at h
      exact absurd h (by simp [dedupOfData])
    | cons m ms =>
      rw [hf] at h
      simp only [dedupOfData, Option.some.injEq] at h
      subst h
      have hmem := dedupCluster_subset (m :: ms) x hx
      have hmem2 : x ∈ filterKeep (l :: rest) := hf ▸ hmem
      exact filterKeep_subset _ x hmem2

/-- C5 (witness): the subset theorem applied to scenario A's
deduplication. -/
theorem c5_witness :
    removeDuplicateLines [segA, segB] = some [segA, segB] ∧
    ∀ x ∈ [segA, segB], x ∈ ([segA, segB] : List Line) :=
  ⟨scenA_dedup, c5_dedup_output_subset [segA, segB] [segA, segB] scenA_dedup⟩

theorem cex5_filter1 :
    filterKeep [segK1, segK2, segK4] = [segK1, segK2, segK4] := by
  norm_num [filterKeep, dedupKeepP, slopeQ, absQ, segK1, segK2, segK4]

theorem cex5_filter2 :
    filterKeep [segK2, segK1, segK4] = [segK2, segK1, segK4] := by
  norm_num [filterKeep, dedupKeepP, slopeQ, absQ, segK1, segK2, segK4]

theorem cex5_split1 : simSplit segK1 [segK2, segK4] = ([segK2], [segK4]) := by
  norm_num [simSplit, dedupSimP, slopeQ, midX, absQ, segK1, segK2, segK4]

theorem cex5_split2 : simSplit segK2 [segK1, segK4] = ([segK1, segK4], []) := by
  norm_num [simSplit, dedupSimP, slopeQ, midX, absQ, segK1, segK2, segK4]

theorem cex5_best2 : bestBy len2 segK2 [segK1, segK4] = segK2 := by
  norm_num [bestBy, len2, segK1, segK2, segK4]

theorem cex5_cluster1 :
    dedupCluster [segK1, segK2, segK4] = [segK2, segK4] := by
  simp only [dedupCluster, cex5_split1, simSplit_nil, cex4_best1, bestBy]

theorem cex5_cluster2 : dedupCluster [segK2, segK1, segK4] = [segK2] := by
  simp only [dedupCluster, cex5_split2, cex5_best2, bestBy]

theorem cex5_dedup1 :
    removeDuplicateLines [segK1, segK2, segK4] = some [segK2, segK4] := by
  simp only [removeDuplicateLines, cex5_filter1, dedupOfData, cex5_cluster1]

theorem cex5_dedup2 :
    removeDuplicateLines [segK2, segK1, segK4] = some [segK2] := by
  simp only [removeDuplicateLines, cex5_filter2, dedupOfData, cex5_cluster2]

/-- C5 (counterexample): the permuted inputs `[segK1, segK2, segK4]`
and `[segK2, segK1, segK4]` (all slope `0.5`, midpoints `0`, `49`,
`98`; `segK2` strictly longest) produce different representative sets:
seeded at `segK1` the chain breaks (`|0 - 98| ≥ 50`) and `segK4`
survives, while seeded at `segK2` (midpoint `49`) both others join one
cluster and only `segK2` survives — not a length tie-break. -/
theorem c5_counterexample :
    [segK1, segK2, segK4].Perm [segK2, segK1, segK4] ∧
    removeDuplicateLines [segK1, segK2, segK4] = some [segK2, segK4] ∧
    removeDuplicateLines [segK2, segK1, segK4] = some [segK2] ∧
    segK4 ∈ [segK2, segK4] ∧ segK4 ∉ [segK2] :=
  ⟨List.Perm.swap segK2 segK1 [segK4], cex5_dedup1, cex5_dedup2,
    by simp, by norm_num [segK2, segK4, List.mem_singleton]⟩
